import Mathlib

/-!
Verification of the PII detection-and-masking engine of `src/BackEnd/pii_scanner.py`.

The scanner locates personally identifiable information in free text with
nine category-specific recognizers (each a regular expression plus optional
validation), aggregates a risk score, and rewrites the text with per-category
masks.  The regular expressions of the source are deep-embedded in the `Re`
type below, and `matchRe` reproduces the leftmost, greedy, backtracking match
semantics of Python's `re` module on the constructs those patterns use;
`finditer` reproduces `re.finditer`'s non-overlapping sequential scan.
Python's `int` builtin can raise `ValueError`; it is modelled by `pyInt`
returning `Option`, which makes the date-of-birth recognizer (the only
fallible one) and the scan orchestrator return `Option` as well.
-/

set_option maxRecDepth 8000

/-! ### Character classes (ASCII, as the source's patterns use them) -/

def isSpaceC (c : Char) : Bool :=
  c == ' ' || c == '\t' || c == '\n' || c == '\r' || c == Char.ofNat 11 || c == Char.ofNat 12

def nonWS (c : Char) : Bool := !(isSpaceC c)

def isWordC (c : Char) : Bool := c.isAlphanum || c == '_'

/-! ### A deep embedding of the regular expressions of the pattern library

Unbounded repetition occurs in the source patterns only over
single-character classes, so the Kleene star is restricted to a character
predicate (`starP`); bounded repetition is unfolded into concatenations. -/

inductive Re where
  | eps
  | wordB
  | pred (p : Char → Bool)
  | cat (a b : Re)
  | alt (a b : Re)
  | opt (a : Re)
  | starP (p : Char → Bool)

def nullable : Re → Bool
  | .eps => true
  | .wordB => true
  | .pred _ => false
  | .cat a b => nullable a && nullable b
  | .alt a b => nullable a || nullable b
  | .opt _ => true
  | .starP _ => true

/-- Python's `\b`: a boundary between a word character and a non-word
character (positions outside the text count as non-word). -/
def wordBoundary (cs : List Char) (i : Nat) : Bool :=
  let prev : Bool :=
    match i with
    | 0 => false
    | n+1 => match cs.get? n with | some c => isWordC c | none => false
  let cur : Bool :=
    match cs.get? i with | some c => isWordC c | none => false
  prev != cur

/-- Length of the maximal run of characters satisfying `p` starting at `i`
(the fuel argument only needs to exceed `cs.length`). -/
def runLen (cs : List Char) (p : Char → Bool) : Nat → Nat → Nat
  | 0, _ => 0
  | fuel+1, i =>
    match cs.get? i with
    | some c => if p c then runLen cs p fuel (i+1) + 1 else 0
    | none => 0

/-- Greedy backtracking over the continuation: try the longest extension
first (`i + n`), then shorter ones down to `i`. -/
def tryFrom (k : Nat → Option Nat) (i : Nat) : Nat → Option Nat
  | 0 => k i
  | n+1 =>
    match k (i + (n+1)) with
    | some j => some j
    | none => tryFrom k i n

/-- Backtracking matcher in continuation-passing style.  `matchRe cs r i k`
attempts to match `r` at position `i` of `cs`; on each admissible end
position `m` (in the preference order of Python's `re`: greedy quantifiers,
leftmost alternative first) it calls `k m`, committing to the first
continuation that succeeds. -/
def matchRe (cs : List Char) : Re → Nat → (Nat → Option Nat) → Option Nat
  | .eps, i, k => k i
  | .wordB, i, k => if wordBoundary cs i then k i else none
  | .pred p, i, k =>
    match cs.get? i with
    | some c => if p c then k (i+1) else none
    | none => none
  | .cat a b, i, k => matchRe cs a i (fun m => matchRe cs b m k)
  | .alt a b, i, k =>
    match matchRe cs a i k with
    | some j => some j
    | none => matchRe cs b i k
  | .opt a, i, k =>
    match matchRe cs a i k with
    | some j => some j
    | none => k i
  | .starP p, i, k => tryFrom k i (runLen cs p (cs.length + 1) i)

/-- `re.finditer`: scan left to right; at each position try a match; after a
match resume at its end (after a zero-width match, advance by one). -/
def finditerAux (cs : List Char) (r : Re) : Nat → Nat → List (Nat × Nat)
  | 0, _ => []
  | fuel+1, i =>
    if i ≤ cs.length then
      match matchRe cs r i some with
      | some j => (i, j) :: finditerAux cs r fuel (if i < j then j else i + 1)
      | none => finditerAux cs r fuel (i + 1)
    else []

def finditer (cs : List Char) (r : Re) : List (Nat × Nat) :=
  finditerAux cs r (cs.length + 2) 0

/-! ### The pattern library of `pii_scanner.py` -/

def chP (c0 : Char) : Re := .pred (fun c => c == c0)

/-- A literal character under `re.IGNORECASE`. -/
def chCI (c0 : Char) : Re := .pred (fun c => c.toLower == c0.toLower)

def digitP : Re := .pred Char.isDigit

def rng (lo hi : Char) : Re := .pred (fun c => lo ≤ c && c ≤ hi)

def catList : List Re → Re
  | [] => .eps
  | [r] => r
  | r :: rest => .cat r (catList rest)

def altList : List Re → Re
  | [] => .eps
  | [r] => r
  | r :: rest => .alt r (altList rest)

/-- `{n}`: exactly `n` repetitions. -/
def repN (r : Re) (n : Nat) : Re := catList (List.replicate n r)

/-- `+` over a character class. -/
def plusP (p : Char → Bool) : Re := .cat (.pred p) (.starP p)

/-- A case-insensitive literal word. -/
def litCI (s : String) : Re := catList (s.toList.map chCI)

/-- `SSN_PATTERN = \b\d{3}-?\d{2}-?\d{4}\b` -/
def SSN_PATTERN : Re :=
  catList [.wordB, repN digitP 3, .opt (chP '-'), repN digitP 2, .opt (chP '-'),
    repN digitP 4, .wordB]

/-- the class `[-.\s]` used as separator in the phone pattern -/
def phoneSepC (c : Char) : Bool := c == '-' || c == '.' || isSpaceC c

/-- `PHONE_PATTERN = \b(\+?1[-.\s]?)?(\(?\d{3}\)?[-.\s]?)?\d{3}[-.\s]?\d{4}\b` -/
def PHONE_PATTERN : Re :=
  catList [.wordB,
    .opt (catList [.opt (chP '+'), chP '1', .opt (.pred phoneSepC)]),
    .opt (catList [.opt (chP '('), repN digitP 3, .opt (chP ')'), .opt (.pred phoneSepC)]),
    repN digitP 3, .opt (.pred phoneSepC), repN digitP 4, .wordB]

def emailLocalC (c : Char) : Bool :=
  c.isAlpha || c.isDigit || c == '.' || c == '_' || c == '%' || c == '+' || c == '-'

def emailDomainC (c : Char) : Bool := c.isAlpha || c.isDigit || c == '.' || c == '-'

/-- the class `[A-Z|a-z]` (which contains a literal pipe) -/
def emailTldC (c : Char) : Bool := ('A' ≤ c && c ≤ 'Z') || c == '|' || ('a' ≤ c && c ≤ 'z')

/-- `EMAIL_PATTERN = \b[A-Za-z0-9._%+-]+@[A-Za-z0-9.-]+\.[A-Z|a-z]{2,}\b` -/
def EMAIL_PATTERN : Re :=
  catList [.wordB, plusP emailLocalC, chP '@', plusP emailDomainC, chP '.',
    .pred emailTldC, plusP emailTldC, .wordB]

/-- the class `[-\s]` used as separator in the credit-card pattern -/
def ccSepC (c : Char) : Bool := c == '-' || isSpaceC c

/-- `CREDIT_CARD_PATTERN = \b\d{4}[-\s]?\d{4}[-\s]?\d{4}[-\s]?\d{3,4}\b` -/
def CREDIT_CARD_PATTERN : Re :=
  catList [.wordB, repN digitP 4, .opt (.pred ccSepC), repN digitP 4, .opt (.pred ccSepC),
    repN digitP 4, .opt (.pred ccSepC), repN digitP 3, .opt digitP, .wordB]

def dobSep : Re := .pred (fun c => c == '-' || c == '/')

/-- `DOB_PATTERN`: `\b(0?[1-9]|1[0-2])` sep `(0?[1-9]|[12][0-9]|3[01])` sep
`(19|20)\d{2}\b`, where sep is the class containing dash and slash. -/
def DOB_PATTERN : Re :=
  catList [.wordB,
    .alt (.cat (.opt (chP '0')) (rng '1' '9')) (.cat (chP '1') (rng '0' '2')),
    dobSep,
    altList [.cat (.opt (chP '0')) (rng '1' '9'),
      .cat (.pred (fun c => c == '1' || c == '2')) (rng '0' '9'),
      .cat (chP '3') (.pred (fun c => c == '0' || c == '1'))],
    dobSep,
    .alt (.cat (chP '1') (chP '9')) (.cat (chP '2') (chP '0')),
    digitP, digitP, .wordB]

/-- `DRIVERS_LICENSE_PATTERN = \b[A-Z]{1,2}\d{6,8}\b` -/
def DRIVERS_LICENSE_PATTERN : Re :=
  catList [.wordB, rng 'A' 'Z', .opt (rng 'A' 'Z'), repN digitP 6, .opt digitP, .opt digitP,
    .wordB]

/-- `ZIP_PATTERN = \b\d{5}(-\d{4})?\b` -/
def ZIP_PATTERN : Re :=
  catList [.wordB, repN digitP 5, .opt (.cat (chP '-') (repN digitP 4)), .wordB]

/-- name pattern `\b[A-Z][a-z]+\s+[A-Z][a-z]+\b` -/
def NAME_PATTERN : Re :=
  catList [.wordB, rng 'A' 'Z', plusP (fun c => 'a' ≤ c && c ≤ 'z'), plusP isSpaceC,
    rng 'A' 'Z', plusP (fun c => 'a' ≤ c && c ≤ 'z'), .wordB]

/-- address pattern
`\b\d+\s+[A-Z][a-z]+\s+(Street|St|Avenue|Ave|Road|Rd|Drive|Dr|Lane|Ln|Boulevard|Blvd|Court|Ct|Way)\b`,
compiled with `re.IGNORECASE` (so the letter classes cover both cases). -/
def ADDRESS_PATTERN : Re :=
  catList [.wordB, plusP Char.isDigit, plusP isSpaceC, .pred Char.isAlpha, plusP Char.isAlpha,
    plusP isSpaceC,
    altList [litCI "Street", litCI "St", litCI "Avenue", litCI "Ave", litCI "Road", litCI "Rd",
      litCI "Drive", litCI "Dr", litCI "Lane", litCI "Ln", litCI "Boulevard", litCI "Blvd",
      litCI "Court", litCI "Ct", litCI "Way"],
    .wordB]

/-! ### Python string helpers -/

/-- `text[a:b]` (half-open slice). -/
def sliceL (cs : List Char) (a b : Nat) : List Char := (cs.drop a).take (b - a)

/-- `str.strip()`: remove leading and trailing whitespace. -/
def pyStrip (l : List Char) : List Char :=
  ((l.dropWhile isSpaceC).reverse.dropWhile isSpaceC).reverse

def splitChGo (sep : Char) : List Char → List Char → List (List Char)
  | [], cur => [cur.reverse]
  | c :: rest, cur =>
    if c == sep then cur.reverse :: splitChGo sep rest []
    else splitChGo sep rest (c :: cur)

/-- `str.split(sep)` for a single-character separator (keeps empty pieces,
always returns at least one piece). -/
def pySplitChar (sep : Char) (l : List Char) : List (List Char) := splitChGo sep l []

def splitWSGo : List Char → List Char → List (List Char)
  | [], cur => if cur.isEmpty then [] else [cur.reverse]
  | c :: rest, cur =>
    if isSpaceC c then
      (if cur.isEmpty then splitWSGo rest [] else cur.reverse :: splitWSGo rest [])
    else splitWSGo rest (c :: cur)

/-- `str.split()` with no argument: split on whitespace runs, no empty pieces. -/
def pySplitWS (l : List Char) : List (List Char) := splitWSGo l []

/-- Python's `int(str)`: optional sign followed by a non-empty digit string
(after stripping surrounding whitespace); anything else raises `ValueError`,
modelled as `none`. -/
def pyInt (l : List Char) : Option Int :=
  let t := pyStrip l
  let signed : Bool × List Char :=
    match t with
    | '-' :: rest => (true, rest)
    | '+' :: rest => (false, rest)
    | _ => (false, t)
  if signed.2 ≠ [] ∧ signed.2.all Char.isDigit then
    let n : Nat := signed.2.foldl (fun acc c => acc * 10 + (c.toNat - 48)) 0
    some (if signed.1 then -(n : Int) else (n : Int))
  else none

/-- `len(set(l))`: the number of distinct elements. -/
def setSize (l : List Char) : Nat :=
  (l.foldl (fun acc c => if acc.contains c then acc else acc ++ [c]) []).length

/-- decimal digits of a natural number, most significant first
(`[int(d) for d in str(n)]`) -/
def decDigitsAux : Nat → Nat → List Nat
  | 0, _ => []
  | fuel+1, n => if n < 10 then [n] else decDigitsAux fuel (n / 10) ++ [n % 10]

def decDigits (n : Nat) : List Nat := decDigitsAux (n + 1) n

/-! ### The Finding data model

One detected PII occurrence, as the dictionaries built by the recognizers:
`type`, `value`, `start`, `end` and `risk`.  Python's `end` is called `stop`
here because `end` is reserved in Lean. -/

structure Finding where
  type : String
  value : String
  start : Nat
  stop : Nat
  risk : String
  deriving DecidableEq, Repr

/-! ### Recognizers -/

/-- `find_social_security_numbers`: SSN raw matches, rejecting digit strings
with a single distinct digit. -/
def find_social_security_numbers (text : String) : List Finding :=
  let cs := text.toList
  (finditer cs SSN_PATTERN).filterMap (fun m =>
    let ssn := sliceL cs m.1 m.2
    let digits_only := ssn.filter Char.isDigit
    if 1 < setSize digits_only then
      some ⟨"ssn", String.mk ssn, m.1, m.2, "critical"⟩
    else none)

/-- `find_phone_numbers`: phone raw matches with 10 or 11 digits; the stored
value is `strip()`-ed. -/
def find_phone_numbers (text : String) : List Finding :=
  let cs := text.toList
  (finditer cs PHONE_PATTERN).filterMap (fun m =>
    let phone := sliceL cs m.1 m.2
    let digits := phone.filter Char.isDigit
    if 10 ≤ digits.length ∧ digits.length ≤ 11 then
      some ⟨"phone", String.mk (pyStrip phone), m.1, m.2, "high"⟩
    else none)

/-- `find_email_addresses`: every raw email match is a finding. -/
def find_email_addresses (text : String) : List Finding :=
  let cs := text.toList
  (finditer cs EMAIL_PATTERN).map (fun m =>
    ⟨"email", String.mk (sliceL cs m.1 m.2), m.1, m.2, "medium"⟩)

/-- `luhn_check` on the list of digit values of the card number:
`digits[-1::-2]` summed as-is, `digits[-2::-2]` doubled and digit-summed. -/
def everyOther : List Nat → List Nat
  | [] => []
  | [a] => [a]
  | a :: _ :: rest => a :: everyOther rest

def luhn_check (digits : List Nat) : Bool :=
  let odd_digits := everyOther digits.reverse
  let even_digits := everyOther (digits.reverse.drop 1)
  let checksum := odd_digits.sum + (even_digits.map (fun d => (decDigits (d * 2)).sum)).sum
  checksum % 10 == 0

/-- `find_credit_cards`: raw matches with 13 to 16 digits passing Luhn. -/
def find_credit_cards (text : String) : List Finding :=
  let cs := text.toList
  (finditer cs CREDIT_CARD_PATTERN).filterMap (fun m =>
    let card_num := sliceL cs m.1 m.2
    let digits := card_num.filter Char.isDigit
    if 13 ≤ digits.length ∧ digits.length ≤ 16 ∧
        luhn_check (digits.map (fun c => c.toNat - 48)) then
      some ⟨"credit_card", String.mk card_num, m.1, m.2, "critical"⟩
    else none)

/-- `date_str.split('/')[-1] if '/' in date_str else date_str.split('-')[-1]` -/
def dobYearChars (ds : List Char) : List Char :=
  if ds.contains '/' then (pySplitChar '/' ds).getLastD []
  else (pySplitChar '-' ds).getLastD []

/-- The loop body of `find_dates_of_birth`: `int(...)` may raise
(`none`); accepted years lie in `[1940, 2015]`. -/
def dobLoop (cs : List Char) : List (Nat × Nat) → Option (List Finding)
  | [] => some []
  | m :: rest =>
    let date_str := sliceL cs m.1 m.2
    match pyInt (dobYearChars date_str) with
    | none => none
    | some year =>
      match dobLoop cs rest with
      | none => none
      | some fs =>
        some (if 1940 ≤ year ∧ year ≤ 2015 then
          ⟨"dob", String.mk date_str, m.1, m.2, "medium"⟩ :: fs
        else fs)

def find_dates_of_birth (text : String) : Option (List Finding) :=
  let cs := text.toList
  dobLoop cs (finditer cs DOB_PATTERN)

/-- `find_drivers_licenses`: every raw match is a finding. -/
def find_drivers_licenses (text : String) : List Finding :=
  let cs := text.toList
  (finditer cs DRIVERS_LICENSE_PATTERN).map (fun m =>
    ⟨"drivers_license", String.mk (sliceL cs m.1 m.2), m.1, m.2, "high"⟩)

/-- `find_zip_codes`: every raw match is a finding. -/
def find_zip_codes (text : String) : List Finding :=
  let cs := text.toList
  (finditer cs ZIP_PATTERN).map (fun m =>
    ⟨"zip", String.mk (sliceL cs m.1 m.2), m.1, m.2, "low"⟩)

def COMMON_NAME_WORDS : List String :=
  ["The", "This", "That", "With", "From", "Have", "Been"]

/-- `find_names_ai_style`: two capitalized words, rejected when a word of the
stoplist occurs among the whitespace-separated words of the match. -/
def find_names_ai_style (text : String) : List Finding :=
  let cs := text.toList
  (finditer cs NAME_PATTERN).filterMap (fun m =>
    let name := sliceL cs m.1 m.2
    let ws := (pySplitWS name).map String.mk
    if COMMON_NAME_WORDS.any (fun w => ws.contains w) then none
    else some ⟨"name", String.mk name, m.1, m.2, "medium"⟩)

/-- `find_addresses_ai_style`: every raw match is a finding. -/
def find_addresses_ai_style (text : String) : List Finding :=
  let cs := text.toList
  (finditer cs ADDRESS_PATTERN).map (fun m =>
    ⟨"address", String.mk (sliceL cs m.1 m.2), m.1, m.2, "high"⟩)

/-- `scan_text_for_pii`: all recognizers in the fixed source order; a
`ValueError` escaping `find_dates_of_birth` propagates (`none`). -/
def scan_text_for_pii (text_content : String) : Option (List Finding) :=
  match find_dates_of_birth text_content with
  | none => none
  | some dob =>
    some (find_social_security_numbers text_content ++
      find_phone_numbers text_content ++
      find_email_addresses text_content ++
      find_credit_cards text_content ++
      dob ++
      find_drivers_licenses text_content ++
      find_zip_codes text_content ++
      find_names_ai_style text_content ++
      find_addresses_ai_style text_content)

/-! ### Risk aggregation -/

/-- The `risk_weights` dictionary of `calculate_risk_level`. -/
def risk_weights (t : String) : Option Nat :=
  if t = "ssn" then some 30
  else if t = "credit_card" then some 30
  else if t = "drivers_license" then some 20
  else if t = "phone" then some 15
  else if t = "address" then some 15
  else if t = "email" then some 10
  else if t = "dob" then some 10
  else if t = "name" then some 5
  else if t = "zip" then some 5
  else none

def calculate_risk_level (found_entities : List Finding) : String × Nat :=
  if found_entities.isEmpty then ("Safe", 0)
  else
    let total_score := found_entities.foldl
      (fun acc e => match risk_weights e.type with | some w => acc + w | none => acc) 0
    let capped := min total_score 100
    let risk_level :=
      if 60 ≤ capped then "Critical"
      else if 40 ≤ capped then "High"
      else if 20 ≤ capped then "Medium"
      else "Low"
    (risk_level, capped)

/-! ### Masking -/

def mask_email (email : String) : String :=
  match pySplitChar '@' email.toList with
  | [username, domain] =>
    if 0 < username.length then
      String.mk (username.take 1 ++ ('*' :: '*' :: '*' :: '@' :: domain))
    else "***@***.com"
  | _ => "***@***.com"

def mask_phone (phone : String) : String :=
  let digits := phone.toList.filter Char.isDigit
  if 2 ≤ digits.length then
    let last_two := String.mk (digits.drop (digits.length - 2))
    if phone.toList.contains '(' then "(***) ***-**" ++ last_two
    else if phone.toList.contains '-' then "***-***-**" ++ last_two
    else "********" ++ last_two
  else "***-***-****"

def mask_ssn (ssn : String) : String :=
  let digits := ssn.toList.filter Char.isDigit
  if 2 ≤ digits.length then
    let last_two := String.mk (digits.drop (digits.length - 2))
    if ssn.toList.contains '-' then "***-**-**" ++ last_two
    else "*******" ++ last_two
  else "***-**-****"

def mask_credit_card (card : String) : String :=
  let digits := card.toList.filter Char.isDigit
  if 2 ≤ digits.length then
    let last_two := String.mk (digits.drop (digits.length - 2))
    if card.toList.contains ' ' then "**** **** **** **" ++ last_two
    else if card.toList.contains '-' then "****-****-****-**" ++ last_two
    else "**************" ++ last_two
  else "****-****-****-****"

def mask_drivers_license (license_num : String) : String :=
  String.mk (license_num.toList.map (fun c => if c.isDigit then 'X' else c))

def mask_name (name : String) : String :=
  let words := pySplitWS name.toList
  let masked_words := words.foldr
    (fun w acc => if 0 < w.length then (w.take 1 ++ ['*', '*', '*']) :: acc else acc) []
  String.mk (List.intercalate [' '] masked_words)

/-- One step of the stable descending-by-`start` insertion sort modelling
`sorted(found_entities, key=lambda x: x["start"], reverse=True)`:
`x` (originally earlier than everything in the accumulator) goes in front of
every element whose `start` is not larger. -/
def insertDesc (x : Finding) : List Finding → List Finding
  | [] => [x]
  | y :: ys => if x.start < y.start then y :: insertDesc x ys else x :: y :: ys

def sortByStartDesc (l : List Finding) : List Finding := l.foldr insertDesc []

/-- The `if/elif` mask dispatch of `mask_sensitive_data`. -/
def maskValueFor (e : Finding) : String :=
  if e.type = "email" then mask_email e.value
  else if e.type = "phone" then mask_phone e.value
  else if e.type = "ssn" then mask_ssn e.value
  else if e.type = "credit_card" then mask_credit_card e.value
  else if e.type = "drivers_license" then mask_drivers_license e.value
  else if e.type = "name" then mask_name e.value
  else if e.type = "address" then "<ADDRESS>"
  else if e.type = "zip" then "<ZIP>"
  else if e.type = "dob" then "mm/dd/yyyy"
  else "<REDACTED>"

/-- `mask_sensitive_data`: sort by `start` descending (stable) and replace
`masked_text[:start] + masked_value + masked_text[end:]` in that order. -/
def mask_sensitive_data (original_text : String) (found_entities : List Finding) : String :=
  let sorted_entities := sortByStartDesc found_entities
  String.mk (sorted_entities.foldl
    (fun acc e => acc.take e.start ++ (maskValueFor e).toList ++ acc.drop e.stop)
    original_text.toList)

/-! ### Generic facts about the matcher

`StartsWith p r` (resp. `EndsWith p r`) is a syntactic criterion
guaranteeing that every nonempty match of `r` begins (resp. ends) with a
character satisfying `p`. -/

def StartsWith (p : Char → Bool) : Re → Prop
  | .eps => True
  | .wordB => True
  | .pred q => ∀ c, q c = true → p c = true
  | .cat a b => StartsWith p a ∧ (nullable a = true → StartsWith p b)
  | .alt a b => StartsWith p a ∧ StartsWith p b
  | .opt a => StartsWith p a
  | .starP q => ∀ c, q c = true → p c = true

def EndsWith (p : Char → Bool) : Re → Prop
  | .eps => True
  | .wordB => True
  | .pred q => ∀ c, q c = true → p c = true
  | .cat a b => EndsWith p b ∧ (nullable b = true → EndsWith p a)
  | .alt a b => EndsWith p a ∧ EndsWith p b
  | .opt a => EndsWith p a
  | .starP q => ∀ c, q c = true → p c = true

theorem runLen_le (cs : List Char) (p : Char → Bool) :
    ∀ fuel i, runLen cs p fuel i ≤ cs.length - i := by
  intro fuel
  induction fuel with
  | zero => intro i; simp [runLen]
  | succ fuel ih =>
    intro i
    simp only [runLen]
    cases hg : cs.get? i with
    | none => simp
    | some c =>
      by_cases hp : p c
      · simp only [hp, if_true]
        have hi : i < cs.length := (List.get?_eq_some.mp hg).1
        have := ih (i + 1)
        omega
      · simp [hp]

theorem runLen_sound (cs : List Char) (p : Char → Bool) :
    ∀ fuel i t, t < runLen cs p fuel i → ∃ c, cs.get? (i + t) = some c ∧ p c = true := by
  intro fuel
  induction fuel with
  | zero => intro i t h; simp [runLen] at h
  | succ fuel ih =>
    intro i t h
    cases hg : cs.get? i with
    | none => simp only [runLen, hg] at h; omega
    | some c =>
      simp only [runLen, hg] at h
      by_cases hp : p c
      · rw [if_pos hp] at h
        cases t with
        | zero => exact ⟨c, by simpa using hg, hp⟩
        | succ t =>
          obtain ⟨c2, hg2, hp2⟩ := ih (i + 1) t (by omega)
          exact ⟨c2, by rw [show i + (t + 1) = i + 1 + t by omega]; exact hg2, hp2⟩
      · rw [if_neg hp] at h; omega

theorem tryFrom_spec (k : Nat → Option Nat) (i : Nat) :
    ∀ n j, tryFrom k i n = some j → ∃ t, t ≤ n ∧ k (i + t) = some j := by
  intro n
  induction n with
  | zero => intro j h; exact ⟨0, le_refl 0, by simpa [tryFrom] using h⟩
  | succ n ih =>
    intro j h
    cases hk : k (i + (n + 1)) with
    | some j2 =>
      simp only [tryFrom, hk, Option.some.injEq] at h
      subst h
      exact ⟨n + 1, le_refl _, hk⟩
    | none =>
      simp only [tryFrom, hk] at h
      obtain ⟨t, ht, hkt⟩ := ih j h
      exact ⟨t, by omega, hkt⟩

/-- Everything a successful run of the matcher guarantees: the continuation
fired at a position `m` between `i` and the end of the text; `m = i` forces
the expression to be nullable; and a nonempty consumed span starts and ends
with characters licensed by `StartsWith` and `EndsWith`. -/
theorem matchRe_spec (cs : List Char) (r : Re) :
    ∀ (i : Nat) (k : Nat → Option Nat) (j : Nat),
      i ≤ cs.length → matchRe cs r i k = some j →
      ∃ m, i ≤ m ∧ m ≤ cs.length ∧ k m = some j ∧
        (m = i → nullable r = true) ∧
        (∀ p, StartsWith p r → i < m → ∃ c, cs.get? i = some c ∧ p c = true) ∧
        (∀ p, EndsWith p r → i < m → ∃ c, cs.get? (m - 1) = some c ∧ p c = true) := by
  induction r with
  | eps =>
    intro i k j hi h
    simp only [matchRe] at h
    exact ⟨i, le_refl i, hi, h, fun _ => rfl,
      fun p _ hlt => absurd hlt (lt_irrefl i),
      fun p _ hlt => absurd hlt (lt_irrefl i)⟩
  | wordB =>
    intro i k j hi h
    simp only [matchRe] at h
    by_cases hb : wordBoundary cs i
    · rw [if_pos hb] at h
      exact ⟨i, le_refl i, hi, h, fun _ => rfl,
        fun p _ hlt => absurd hlt (lt_irrefl i),
        fun p _ hlt => absurd hlt (lt_irrefl i)⟩
    · rw [if_neg hb] at h; exact absurd h (by simp)
  | pred q =>
    intro i k j hi h
    cases hg : cs.get? i with
    | none => simp only [matchRe, hg] at h; exact Option.noConfusion h
    | some c =>
      simp only [matchRe, hg] at h
      by_cases hp : q c
      · rw [if_pos hp] at h
        have hlen : i < cs.length := (List.get?_eq_some.mp hg).1
        refine ⟨i + 1, by omega, by omega, h, fun hh => absurd hh (by omega), ?_, ?_⟩
        · intro p hsw _
          exact ⟨c, rfl, hsw c hp⟩
        · intro p hew _
          exact ⟨c, by rw [show i + 1 - 1 = i from rfl, hg], hew c hp⟩
      · rw [if_neg hp] at h; exact absurd h (by simp)
  | cat a b iha ihb =>
    intro i k j hi h
    simp only [matchRe] at h
    obtain ⟨m1, hm1i, hm1len, hk1, hnull1, hst1, hen1⟩ :=
      iha i (fun m => matchRe cs b m k) j hi h
    obtain ⟨m2, hm2i, hm2len, hk2, hnull2, hst2, hen2⟩ := ihb m1 k j hm1len hk1
    refine ⟨m2, le_trans hm1i hm2i, hm2len, hk2, ?_, ?_, ?_⟩
    · intro hm2
      have hm1 : m1 = i := le_antisymm (by omega) hm1i
      simp only [nullable, Bool.and_eq_true]
      exact ⟨hnull1 hm1, hnull2 (by omega)⟩
    · intro p hsw hlt
      simp only [StartsWith] at hsw
      obtain ⟨ha, hb⟩ := hsw
      by_cases hc : i < m1
      · exact hst1 p ha hc
      · have hm1 : m1 = i := le_antisymm (by omega) hm1i
        have := hst2 p (hb (hnull1 hm1)) (by omega)
        rw [hm1] at this
        exact this
    · intro p hew hlt
      simp only [EndsWith] at hew
      obtain ⟨hb, ha⟩ := hew
      by_cases hc : m1 < m2
      · exact hen2 p hb hc
      · have hm2 : m2 = m1 := le_antisymm (by omega) hm2i
        rw [hm2]
        exact hen1 p (ha (hnull2 hm2)) (by omega)
  | alt a b iha ihb =>
    intro i k j hi h
    cases hma : matchRe cs a i k with
    | some j2 =>
      simp only [matchRe, hma, Option.some.injEq] at h
      subst h
      obtain ⟨m, h1, h2, h3, h4, h5, h6⟩ := iha i k j2 hi hma
      refine ⟨m, h1, h2, h3, ?_, ?_, ?_⟩
      · intro hm; simp only [nullable, Bool.or_eq_true]; exact Or.inl (h4 hm)
      · intro p hsw hlt
        simp only [StartsWith] at hsw
        exact h5 p hsw.1 hlt
      · intro p hew hlt
        simp only [EndsWith] at hew
        exact h6 p hew.1 hlt
    | none =>
      simp only [matchRe, hma] at h
      obtain ⟨m, h1, h2, h3, h4, h5, h6⟩ := ihb i k j hi h
      refine ⟨m, h1, h2, h3, ?_, ?_, ?_⟩
      · intro hm; simp only [nullable, Bool.or_eq_true]; exact Or.inr (h4 hm)
      · intro p hsw hlt
        simp only [StartsWith] at hsw
        exact h5 p hsw.2 hlt
      · intro p hew hlt
        simp only [EndsWith] at hew
        exact h6 p hew.2 hlt
  | opt a iha =>
    intro i k j hi h
    cases hma : matchRe cs a i k with
    | some j2 =>
      simp only [matchRe, hma, Option.some.injEq] at h
      subst h
      obtain ⟨m, h1, h2, h3, _, h5, h6⟩ := iha i k j2 hi hma
      refine ⟨m, h1, h2, h3, fun _ => rfl, ?_, ?_⟩
      · intro p hsw hlt
        simp only [StartsWith] at hsw
        exact h5 p hsw hlt
      · intro p hew hlt
        simp only [EndsWith] at hew
        exact h6 p hew hlt
    | none =>
      simp only [matchRe, hma] at h
      exact ⟨i, le_refl i, hi, h, fun _ => rfl,
        fun p _ hlt => absurd hlt (lt_irrefl i),
        fun p _ hlt => absurd hlt (lt_irrefl i)⟩
  | starP q =>
    intro i k j hi h
    simp only [matchRe] at h
    obtain ⟨t, htle, hkt⟩ := tryFrom_spec k i _ j h
    have hrl : runLen cs q (cs.length + 1) i ≤ cs.length - i := runLen_le cs q _ i
    refine ⟨i + t, by omega, by omega, hkt, fun _ => rfl, ?_, ?_⟩
    · intro p hsw hlt
      have ht0 : 0 < runLen cs q (cs.length + 1) i := by omega
      obtain ⟨c, hg, hq⟩ := runLen_sound cs q _ i 0 ht0
      exact ⟨c, by simpa using hg, hsw c hq⟩
    · intro p hew hlt
      have htr : t - 1 < runLen cs q (cs.length + 1) i := by omega
      obtain ⟨c, hg, hq⟩ := runLen_sound cs q _ i (t - 1) htr
      refine ⟨c, ?_, hew c hq⟩
      rw [show i + t - 1 = i + (t - 1) by omega]
      exact hg

theorem finditerAux_mem (cs : List Char) (r : Re) :
    ∀ fuel pos i j, (i, j) ∈ finditerAux cs r fuel pos →
      i ≤ cs.length ∧ matchRe cs r i some = some j := by
  intro fuel
  induction fuel with
  | zero => intro pos i j h; simp [finditerAux] at h
  | succ fuel ih =>
    intro pos i j h
    cases hm : matchRe cs r pos some with
    | some j2 =>
      by_cases hp : pos ≤ cs.length
      · simp only [finditerAux, if_pos hp, hm] at h
        rcases List.mem_cons.mp h with heq | htail
        · rw [Prod.mk.injEq] at heq
          obtain ⟨rfl, rfl⟩ := heq
          exact ⟨hp, hm⟩
        · exact ih _ i j htail
      · simp only [finditerAux, if_neg hp] at h
        exact absurd h (List.not_mem_nil _)
    | none =>
      by_cases hp : pos ≤ cs.length
      · simp only [finditerAux, if_pos hp, hm] at h
        exact ih _ i j h
      · simp only [finditerAux, if_neg hp] at h
        exact absurd h (List.not_mem_nil _)

/-- Raw matches of a non-nullable pattern are nonempty, in-bounds spans. -/
theorem finditer_bounds (cs : List Char) (r : Re) (hr : nullable r = false) :
    ∀ i j, (i, j) ∈ finditer cs r →
      i < j ∧ j ≤ cs.length ∧ matchRe cs r i some = some j := by
  intro i j hm
  obtain ⟨hi, hmr⟩ := finditerAux_mem cs r _ _ i j hm
  obtain ⟨m, him, hlen, hk, hnull, _, _⟩ := matchRe_spec cs r i some j hi hmr
  have hmj : m = j := Option.some.inj hk
  subst hmj
  refine ⟨?_, hlen, hmr⟩
  rcases Nat.eq_or_lt_of_le him with heq | hlt
  · have := hnull heq.symm
    rw [hr] at this
    exact absurd this (by decide)
  · exact hlt

theorem ssn_not_nullable : nullable SSN_PATTERN = false := rfl
theorem phone_not_nullable : nullable PHONE_PATTERN = false := rfl
theorem email_not_nullable : nullable EMAIL_PATTERN = false := rfl
theorem cc_not_nullable : nullable CREDIT_CARD_PATTERN = false := rfl
theorem dob_not_nullable : nullable DOB_PATTERN = false := rfl
theorem dl_not_nullable : nullable DRIVERS_LICENSE_PATTERN = false := rfl
theorem zip_not_nullable : nullable ZIP_PATTERN = false := rfl
theorem name_not_nullable : nullable NAME_PATTERN = false := rfl
theorem address_not_nullable : nullable ADDRESS_PATTERN = false := rfl

theorem isDigit_nonWS : ∀ c : Char, Char.isDigit c = true → nonWS c = true := by
  intro c h
  cases hs : isSpaceC c with
  | false => simp [nonWS, hs]
  | true =>
    exfalso
    simp only [isSpaceC, Bool.or_eq_true, beq_iff_eq] at hs
    rcases hs with ((((h1 | h1) | h1) | h1) | h1) | h1 <;>
      (subst h1; exact absurd h (by decide))

/-- Every nonempty match of the phone pattern begins with a character that
is not whitespace. -/
theorem phone_starts : StartsWith nonWS PHONE_PATTERN := by
  simp [PHONE_PATTERN, catList, repN, List.replicate, plusP, chP, digitP, StartsWith, nullable]
  exact ⟨⟨by decide, by decide⟩, by decide, isDigit_nonWS⟩

/-- Every nonempty match of the phone pattern ends with a character that is
not whitespace. -/
theorem phone_ends : EndsWith nonWS PHONE_PATTERN := by
  simp [PHONE_PATTERN, catList, repN, List.replicate, plusP, chP, digitP, EndsWith, nullable]
  exact isDigit_nonWS

theorem sliceL_get_first (cs : List Char) (i j : Nat) (hij : i < j) :
    (sliceL cs i j).get? 0 = cs.get? i := by
  unfold sliceL
  rw [List.get?_take (by omega), List.get?_drop, Nat.add_zero]

theorem sliceL_length (cs : List Char) (i j : Nat) (hij : i ≤ j) (hj : j ≤ cs.length) :
    (sliceL cs i j).length = j - i := by
  unfold sliceL
  rw [List.length_take, List.length_drop]
  omega

theorem sliceL_get_last (cs : List Char) (i j : Nat) (hij : i < j) (hj : j ≤ cs.length) :
    (sliceL cs i j).get? ((sliceL cs i j).length - 1) = cs.get? (j - 1) := by
  rw [sliceL_length cs i j (le_of_lt hij) hj]
  unfold sliceL
  rw [List.get?_take (by omega), List.get?_drop]
  congr 1
  omega

theorem nonWS_isSpaceC_false (c : Char) (h : nonWS c = true) : isSpaceC c = false := by
  cases hb : isSpaceC c
  · rfl
  · unfold nonWS at h
    rw [hb] at h
    exact absurd h (by decide)

/-- `strip()` is the identity on a string whose first and last characters
are not whitespace. -/
theorem pyStrip_eq_self (l : List Char) (c1 c2 : Char)
    (h1 : l.get? 0 = some c1) (hn1 : nonWS c1 = true)
    (h2 : l.get? (l.length - 1) = some c2) (hn2 : nonWS c2 = true) :
    pyStrip l = l := by
  have hne : l ≠ [] := by
    intro he
    rw [he] at h1
    exact Option.noConfusion h1
  obtain ⟨x, t, rfl⟩ := List.exists_cons_of_ne_nil hne
  have hx : c1 = x := by
    have h0 : some x = some c1 := by simpa using h1
    exact (Option.some.inj h0).symm
  subst hx
  unfold pyStrip
  have hd1 : (c1 :: t).dropWhile isSpaceC = c1 :: t := by
    rw [List.dropWhile_cons, nonWS_isSpaceC_false c1 hn1]
    simp
  rw [hd1]
  have hrevne : (c1 :: t).reverse ≠ [] := by simp
  obtain ⟨y, t2, hr⟩ := List.exists_cons_of_ne_nil hrevne
  have hrev : ((c1 :: t).reverse).get? 0 = some c2 := by
    rw [List.get?_reverse (by simp)]
    simpa using h2
  rw [hr] at hrev
  have hy : c2 = y := by
    have h0 : some y = some c2 := by simpa using hrev
    exact (Option.some.inj h0).symm
  subst hy
  rw [hr, List.dropWhile_cons, nonWS_isSpaceC_false c2 hn2]
  simp only [Bool.false_eq_true, if_false]
  rw [← hr, List.reverse_reverse]

/-- Every nonempty raw phone match starts and ends with a non-whitespace
character of the text. -/
theorem finditer_phone_edges (cs : List Char) (i j : Nat)
    (hm : (i, j) ∈ finditer cs PHONE_PATTERN) :
    ∃ c1 c2, cs.get? i = some c1 ∧ nonWS c1 = true ∧
      cs.get? (j - 1) = some c2 ∧ nonWS c2 = true := by
  obtain ⟨hi, hmr⟩ := finditerAux_mem cs PHONE_PATTERN _ _ i j hm
  obtain ⟨m, him, hlen, hk, hnull, hst, hen⟩ :=
    matchRe_spec cs PHONE_PATTERN i some j hi hmr
  have hmj : j = m := (Option.some.inj hk).symm
  subst hmj
  have hij : i < j := by
    rcases Nat.eq_or_lt_of_le him with heq | hlt
    · have := hnull heq.symm
      rw [phone_not_nullable] at this
      exact absurd this (by decide)
    · exact hlt
  obtain ⟨c1, hg1, hn1⟩ := hst nonWS phone_starts hij
  obtain ⟨c2, hg2, hn2⟩ := hen nonWS phone_ends hij
  exact ⟨c1, c2, hg1, hn1, hg2, hn2⟩

theorem dobLoop_mem (cs : List Char) :
    ∀ ms l f, dobLoop cs ms = some l → f ∈ l →
      ∃ m, m ∈ ms ∧
        f = ⟨"dob", String.mk (sliceL cs m.1 m.2), m.1, m.2, "medium"⟩ := by
  intro ms
  induction ms with
  | nil =>
    intro l f h hf
    simp only [dobLoop, Option.some.injEq] at h
    subst h
    exact absurd hf (List.not_mem_nil f)
  | cons m rest ih =>
    intro l f h hf
    cases hy : pyInt (dobYearChars (sliceL cs m.1 m.2)) with
    | none =>
      simp only [dobLoop, hy] at h
      exact Option.noConfusion h
    | some year =>
      cases hr : dobLoop cs rest with
      | none =>
        simp only [dobLoop, hy, hr] at h
        exact Option.noConfusion h
      | some fs =>
        simp only [dobLoop, hy, hr, Option.some.injEq] at h
        subst h
        by_cases hyr : 1940 ≤ year ∧ year ≤ 2015
        · rw [if_pos hyr] at hf
          rcases List.mem_cons.mp hf with heq | htail
          · exact ⟨m, List.mem_cons_self m rest, heq⟩
          · obtain ⟨m2, hm2, hfe⟩ := ih fs f hr htail
            exact ⟨m2, List.mem_cons_of_mem m hm2, hfe⟩
        · rw [if_neg hyr] at hf
          obtain ⟨m2, hm2, hfe⟩ := ih fs f hr hf
          exact ⟨m2, List.mem_cons_of_mem m hm2, hfe⟩

/-- C3: for every input text on which the scan returns (rather than
raising), every returned finding `f` satisfies `text[start:end] == f.value`
— including the phone recognizer, whose `strip()`-ed value always equals
the raw slice — and `0 <= start < end <= len(text)`. -/
theorem c3_offset_correctness (text : String) (fs : List Finding) (f : Finding)
    (hs : scan_text_for_pii text = some fs) (hf : f ∈ fs) :
    f.value = String.mk (sliceL text.toList f.start f.stop) ∧
    0 ≤ f.start ∧ f.start < f.stop ∧ f.stop ≤ text.length := by
  unfold scan_text_for_pii at hs
  cases hd : find_dates_of_birth text with
  | none => rw [hd] at hs; exact Option.noConfusion hs
  | some dob =>
    rw [hd] at hs
    have hfs : _ = fs := Option.some.inj hs
    subst hfs
    simp only [List.mem_append] at hf
    rcases hf with ((((((((hf | hf) | hf) | hf) | hf) | hf) | hf) | hf) | hf)
    · -- ssn
      simp only [find_social_security_numbers, List.mem_filterMap] at hf
      obtain ⟨⟨i, j⟩, hm, hsome⟩ := hf
      by_cases hc : 1 < setSize (List.filter Char.isDigit (sliceL text.toList i j))
      · rw [if_pos hc] at hsome
        have hfe : _ = f := Option.some.inj hsome
        subst hfe
        obtain ⟨hij, hjl, _⟩ := finditer_bounds _ _ ssn_not_nullable i j hm
        exact ⟨rfl, Nat.zero_le _, hij, hjl⟩
      · rw [if_neg hc] at hsome
        exact Option.noConfusion hsome
    · -- phone
      simp only [find_phone_numbers, List.mem_filterMap] at hf
      obtain ⟨⟨i, j⟩, hm, hsome⟩ := hf
      by_cases hc : 10 ≤ (List.filter Char.isDigit (sliceL text.toList i j)).length ∧
          (List.filter Char.isDigit (sliceL text.toList i j)).length ≤ 11
      · rw [if_pos hc] at hsome
        have hfe : _ = f := Option.some.inj hsome
        subst hfe
        obtain ⟨hij, hjl, _⟩ := finditer_bounds _ _ phone_not_nullable i j hm
        obtain ⟨c1, c2, hg1, hn1, hg2, hn2⟩ := finditer_phone_edges text.toList i j hm
        have hstrip : pyStrip (sliceL text.toList i j) = sliceL text.toList i j := by
          apply pyStrip_eq_self _ c1 c2
          · rw [sliceL_get_first _ _ _ hij]; exact hg1
          · exact hn1
          · rw [sliceL_get_last _ _ _ hij hjl]; exact hg2
          · exact hn2
        refine ⟨?_, Nat.zero_le _, hij, hjl⟩
        show String.mk (pyStrip (sliceL text.toList i j)) = String.mk (sliceL text.toList i j)
        rw [hstrip]
      · rw [if_neg hc] at hsome
        exact Option.noConfusion hsome
    · -- email
      simp only [find_email_addresses, List.mem_map] at hf
      obtain ⟨⟨i, j⟩, hm, hfe⟩ := hf
      subst hfe
      obtain ⟨hij, hjl, _⟩ := finditer_bounds _ _ email_not_nullable i j hm
      exact ⟨rfl, Nat.zero_le _, hij, hjl⟩
    · -- credit card
      simp only [find_credit_cards, List.mem_filterMap] at hf
      obtain ⟨⟨i, j⟩, hm, hsome⟩ := hf
      by_cases hc : 13 ≤ (List.filter Char.isDigit (sliceL text.toList i j)).length ∧
          (List.filter Char.isDigit (sliceL text.toList i j)).length ≤ 16 ∧
          luhn_check ((List.filter Char.isDigit (sliceL text.toList i j)).map
            (fun c => c.toNat - 48)) = true
      · rw [if_pos hc] at hsome
        have hfe : _ = f := Option.some.inj hsome
        subst hfe
        obtain ⟨hij, hjl, _⟩ := finditer_bounds _ _ cc_not_nullable i j hm
        exact ⟨rfl, Nat.zero_le _, hij, hjl⟩
      · rw [if_neg hc] at hsome
        exact Option.noConfusion hsome
    · -- dob
      simp only [find_dates_of_birth] at hd
      obtain ⟨⟨i, j⟩, hm, hfe⟩ := dobLoop_mem text.toList _ dob f hd hf
      subst hfe
      obtain ⟨hij, hjl, _⟩ := finditer_bounds _ _ dob_not_nullable i j hm
      exact ⟨rfl, Nat.zero_le _, hij, hjl⟩
    · -- drivers license
      simp only [find_drivers_licenses, List.mem_map] at hf
      obtain ⟨⟨i, j⟩, hm, hfe⟩ := hf
      subst hfe
      obtain ⟨hij, hjl, _⟩ := finditer_bounds _ _ dl_not_nullable i j hm
      exact ⟨rfl, Nat.zero_le _, hij, hjl⟩
    · -- zip
      simp only [find_zip_codes, List.mem_map] at hf
      obtain ⟨⟨i, j⟩, hm, hfe⟩ := hf
      subst hfe
      obtain ⟨hij, hjl, _⟩ := finditer_bounds _ _ zip_not_nullable i j hm
      exact ⟨rfl, Nat.zero_le _, hij, hjl⟩
    · -- name
      simp only [find_names_ai_style, List.mem_filterMap] at hf
      obtain ⟨⟨i, j⟩, hm, hsome⟩ := hf
      by_cases hc : COMMON_NAME_WORDS.any
          (fun w => ((pySplitWS (sliceL text.toList i j)).map String.mk).contains w) = true
      · rw [if_pos hc] at hsome
        exact Option.noConfusion hsome
      · rw [if_neg hc] at hsome
        have hfe : _ = f := Option.some.inj hsome
        subst hfe
        obtain ⟨hij, hjl, _⟩ := finditer_bounds _ _ name_not_nullable i j hm
        exact ⟨rfl, Nat.zero_le _, hij, hjl⟩
    · -- address
      simp only [find_addresses_ai_style, List.mem_map] at hf
      obtain ⟨⟨i, j⟩, hm, hfe⟩ := hf
      subst hfe
      obtain ⟨hij, hjl, _⟩ := finditer_bounds _ _ address_not_nullable i j hm
      exact ⟨rfl, Nat.zero_le _, hij, hjl⟩

/-! ### Luhn checksum, positional form -/

/-- Modelled from the spec's description of the Luhn checksum: walk the
digit list from the end; digits at odd positions from the end are added
as-is, digits at even positions are doubled and the decimal digits of the
doubled value are summed into the total.  The flag says whether the head of
the remaining (reversed) list sits at an even position from the end. -/
def luhnSpecAux : Bool → List Nat → Nat
  | _, [] => 0
  | false, d :: ds => d + luhnSpecAux true ds
  | true, d :: ds => (decDigits (d * 2)).sum + luhnSpecAux false ds

def luhnSpecTotal (l : List Nat) : Nat := luhnSpecAux false l.reverse

theorem everyOther_cons (x : Nat) (l : List Nat) :
    everyOther (x :: l) = x :: everyOther (l.drop 1) := by
  cases l with
  | nil => simp [everyOther]
  | cons c l2 => simp [everyOther]

theorem luhnAux_eq : ∀ r : List Nat,
    (everyOther r).sum +
      ((everyOther (r.drop 1)).map (fun d => (decDigits (d * 2)).sum)).sum
      = luhnSpecAux false r
  | [] => by simp [everyOther, luhnSpecAux]
  | [a] => by simp [everyOther, luhnSpecAux]
  | a :: b :: rest => by
    have ih := luhnAux_eq rest
    rw [everyOther_cons a (b :: rest)]
    simp only [List.drop_succ_cons, List.drop_zero]
    rw [everyOther_cons b rest]
    simp only [List.sum_cons, List.map_cons, luhnSpecAux]
    omega

/-- The slice-based checksum of `luhn_check` agrees with the positional
description of the spec. -/
theorem luhn_check_iff_spec (l : List Nat) :
    luhn_check l = true ↔ luhnSpecTotal l % 10 = 0 := by
  simp only [luhn_check, luhnSpecTotal]
  rw [luhnAux_eq l.reverse]
  simp [beq_iff_eq]

/-! ### Risk aggregation, spec form -/

/-- Modelled from the spec's weight table: ssn=30, credit_card=30,
drivers_license=20, phone=15, address=15, email=10, dob=10, name=5, zip=5;
a category absent from the table contributes 0. -/
def specWeight (t : String) : Nat :=
  if t = "ssn" then 30
  else if t = "credit_card" then 30
  else if t = "drivers_license" then 20
  else if t = "phone" then 15
  else if t = "address" then 15
  else if t = "email" then 10
  else if t = "dob" then 10
  else if t = "name" then 5
  else if t = "zip" then 5
  else 0

/-- Modelled from the spec's threshold table on the clamped score. -/
def specLevel (s : Nat) : String :=
  if 60 ≤ s then "Critical"
  else if 40 ≤ s then "High"
  else if 20 ≤ s then "Medium"
  else "Low"

theorem weight_step (t : String) (acc : Nat) :
    (match risk_weights t with | some w => acc + w | none => acc) = acc + specWeight t := by
  unfold risk_weights specWeight
  split_ifs <;> rfl

theorem specWeight_eq_getD (t : String) : specWeight t = (risk_weights t).getD 0 := by
  unfold risk_weights specWeight
  split_ifs <;> rfl

theorem foldl_weights (fs : List Finding) :
    ∀ acc, fs.foldl
        (fun acc e => match risk_weights e.type with | some w => acc + w | none => acc) acc
      = acc + (fs.map (fun f => specWeight f.type)).sum := by
  induction fs with
  | nil => intro acc; simp
  | cons f rest ih =>
    intro acc
    simp only [List.foldl_cons, List.map_cons, List.sum_cons]
    rw [weight_step, ih]
    omega

/-- Characterization of `calculate_risk_level`: empty shortcut, clamped
weight sum, threshold levels. -/
theorem calc_risk_eq (fs : List Finding) :
    calculate_risk_level fs =
      if fs.isEmpty then ("Safe", 0)
      else (specLevel (min ((fs.map (fun f => specWeight f.type)).sum) 100),
            min ((fs.map (fun f => specWeight f.type)).sum) 100) := by
  cases h : fs.isEmpty
  · simp only [calculate_risk_level, specLevel, h, Bool.false_eq_true, if_false]
    rw [foldl_weights fs 0]
    simp only [Nat.zero_add]
  · simp only [calculate_risk_level, h, if_true]

/-! ### The claims -/

/-- C1: on `"Contact me at john@example.com or call 555-123-4567"` the scan
returns exactly two findings — the phone `555-123-4567` and the email
`john@example.com` — `calculate_risk_level` on them yields
`("Medium", 25)` (weights 15 + 10), and masking yields
`"Contact me at j***@example.com or call ***-***-**67"`. -/
theorem c1_end_to_end :
    scan_text_for_pii "Contact me at john@example.com or call 555-123-4567" =
      some [⟨"phone", "555-123-4567", 39, 51, "high"⟩,
        ⟨"email", "john@example.com", 14, 30, "medium"⟩] ∧
    calculate_risk_level [⟨"phone", "555-123-4567", 39, 51, "high"⟩,
        ⟨"email", "john@example.com", 14, 30, "medium"⟩] = ("Medium", 25) ∧
    mask_sensitive_data "Contact me at john@example.com or call 555-123-4567"
        [⟨"phone", "555-123-4567", 39, 51, "high"⟩,
         ⟨"email", "john@example.com", 14, 30, "medium"⟩] =
      "Contact me at j***@example.com or call ***-***-**67" :=
  ⟨by decide, by decide, by decide⟩

/-- C2 (code bug): on `"03/15-1999"` the date-of-birth pattern matches the
whole input, the recognizer then takes the text after the last '/' —
`"15-1999"` — as the year, and Python's `int` raises `ValueError` on it, so
`scan_text_for_pii` raises instead of returning a findings list (modelled
by `none`). -/
theorem c2_dob_valueerror :
    finditer "03/15-1999".toList DOB_PATTERN = [(0, 10)] ∧
    dobYearChars (sliceL "03/15-1999".toList 0 10) = "15-1999".toList ∧
    pyInt "15-1999".toList = none ∧
    find_dates_of_birth "03/15-1999" = none ∧
    scan_text_for_pii "03/15-1999" = none :=
  ⟨by decide, by decide, by decide, by decide, by decide⟩

/-- C4: a raw credit-card pattern match becomes a finding exactly when the
separator-stripped digit string has between 13 and 16 digits and its
positional Luhn total (odd-from-end digits as-is, even-from-end digits
doubled and digit-summed) is divisible by 10; `4111 1111 1111 1111` is
accepted and `4111 1111 1111 1112` rejected. -/
theorem c4_luhn :
    (∀ (text : String) (i j : Nat),
      ((⟨"credit_card", String.mk (sliceL text.toList i j), i, j, "critical"⟩ : Finding) ∈
          find_credit_cards text ↔
        ((i, j) ∈ finditer text.toList CREDIT_CARD_PATTERN ∧
          13 ≤ (List.filter Char.isDigit (sliceL text.toList i j)).length ∧
          (List.filter Char.isDigit (sliceL text.toList i j)).length ≤ 16 ∧
          luhnSpecTotal ((List.filter Char.isDigit (sliceL text.toList i j)).map
            (fun c => c.toNat - 48)) % 10 = 0))) ∧
    find_credit_cards "4111 1111 1111 1111" =
      [⟨"credit_card", "4111 1111 1111 1111", 0, 19, "critical"⟩] ∧
    find_credit_cards "4111 1111 1111 1112" = [] := by
  refine ⟨?_, by decide, by decide⟩
  intro text i j
  constructor
  · intro hmem
    simp only [find_credit_cards, List.mem_filterMap] at hmem
    obtain ⟨⟨a, b⟩, hm, hsome⟩ := hmem
    by_cases hc : 13 ≤ (List.filter Char.isDigit (sliceL text.toList a b)).length ∧
        (List.filter Char.isDigit (sliceL text.toList a b)).length ≤ 16 ∧
        luhn_check ((List.filter Char.isDigit (sliceL text.toList a b)).map
          (fun c => c.toNat - 48)) = true
    · rw [if_pos hc] at hsome
      have hinj := Option.some.inj hsome
      rw [Finding.mk.injEq] at hinj
      obtain ⟨-, -, ha, hb, -⟩ := hinj
      subst ha
      subst hb
      obtain ⟨h13, h16, hl⟩ := hc
      exact ⟨hm, h13, h16, (luhn_check_iff_spec _).mp hl⟩
    · rw [if_neg hc] at hsome
      exact Option.noConfusion hsome
  · rintro ⟨hm, h13, h16, hl⟩
    simp only [find_credit_cards, List.mem_filterMap]
    refine ⟨(i, j), hm, ?_⟩
    rw [if_pos ⟨h13, h16, (luhn_check_iff_spec _).mpr hl⟩]

theorem c4_witness :
    (0, 19) ∈ finditer "4111 1111 1111 1111".toList CREDIT_CARD_PATTERN ∧
    13 ≤ (List.filter Char.isDigit (sliceL "4111 1111 1111 1111".toList 0 19)).length ∧
    (List.filter Char.isDigit (sliceL "4111 1111 1111 1111".toList 0 19)).length ≤ 16 ∧
    luhnSpecTotal ((List.filter Char.isDigit (sliceL "4111 1111 1111 1111".toList 0 19)).map
      (fun c => c.toNat - 48)) % 10 = 0 :=
  (c4_luhn.1 "4111 1111 1111 1111" 0 19).mp (by decide)

/-- C5: `calculate_risk_level` returns `("Safe", 0)` on the empty list and
otherwise the per-category weight sum (ssn=30, credit_card=30,
drivers_license=20, phone=15, address=15, email=10, dob=10, name=5, zip=5,
0 for any other category) clamped at 100, with the level determined by the
thresholds 60/40/20 on the clamped score. -/
theorem c5_risk_scoring (fs : List Finding) :
    calculate_risk_level fs =
      if fs.isEmpty then ("Safe", 0)
      else (specLevel (min ((fs.map (fun f => specWeight f.type)).sum) 100),
            min ((fs.map (fun f => specWeight f.type)).sum) 100) :=
  calc_risk_eq fs

/-- C6: a raw SSN pattern match becomes a finding exactly when the
separator-stripped digit string has more than one distinct digit;
`000-00-0000` is rejected and `123-45-6789` accepted with severity
critical. -/
theorem c6_ssn_guard :
    (∀ (text : String) (i j : Nat),
      ((⟨"ssn", String.mk (sliceL text.toList i j), i, j, "critical"⟩ : Finding) ∈
          find_social_security_numbers text ↔
        ((i, j) ∈ finditer text.toList SSN_PATTERN ∧
          1 < setSize (List.filter Char.isDigit (sliceL text.toList i j))))) ∧
    find_social_security_numbers "000-00-0000" = [] ∧
    find_social_security_numbers "123-45-6789" =
      [⟨"ssn", "123-45-6789", 0, 11, "critical"⟩] := by
  refine ⟨?_, by decide, by decide⟩
  intro text i j
  constructor
  · intro hmem
    simp only [find_social_security_numbers, List.mem_filterMap] at hmem
    obtain ⟨⟨a, b⟩, hm, hsome⟩ := hmem
    by_cases hc : 1 < setSize (List.filter Char.isDigit (sliceL text.toList a b))
    · rw [if_pos hc] at hsome
      have hinj := Option.some.inj hsome
      rw [Finding.mk.injEq] at hinj
      obtain ⟨-, -, ha, hb, -⟩ := hinj
      subst ha
      subst hb
      exact ⟨hm, hc⟩
    · rw [if_neg hc] at hsome
      exact Option.noConfusion hsome
  · rintro ⟨hm, hc⟩
    simp only [find_social_security_numbers, List.mem_filterMap]
    refine ⟨(i, j), hm, ?_⟩
    rw [if_pos hc]

theorem c6_witness :
    (0, 11) ∈ finditer "123-45-6789".toList SSN_PATTERN ∧
    1 < setSize (List.filter Char.isDigit (sliceL "123-45-6789".toList 0 11)) :=
  (c6_ssn_guard.1 "123-45-6789" 0 11).mp (by decide)

/-- C7: appending a finding whose category has positive weight in the
weight table never decreases the score, and the score always lies in
`[0, 100]`. -/
theorem c7_risk_monotonicity :
    (∀ (fs : List Finding) (f : Finding) (w : Nat),
        risk_weights f.type = some w → 0 < w →
        (calculate_risk_level fs).2 ≤ (calculate_risk_level (fs ++ [f])).2) ∧
    (∀ fs : List Finding,
        0 ≤ (calculate_risk_level fs).2 ∧ (calculate_risk_level fs).2 ≤ 100) := by
  constructor
  · intro fs f w hw hpos
    rw [calc_risk_eq, calc_risk_eq]
    cases hfe : fs.isEmpty
    · have hfe2 : (fs ++ [f]).isEmpty = false := by
        cases fs with
        | nil => simp at hfe
        | cons a l => rfl
      simp only [hfe, hfe2, Bool.false_eq_true, if_false]
      show min ((fs.map (fun f => specWeight f.type)).sum) 100 ≤
        min (((fs ++ [f]).map (fun f => specWeight f.type)).sum) 100
      rw [List.map_append, List.sum_append]
      exact min_le_min (Nat.le_add_right _ _) (le_refl 100)
    · simp only [hfe, if_true]
      exact Nat.zero_le _
  · intro fs
    rw [calc_risk_eq]
    cases hfe : fs.isEmpty
    · simp only [hfe, Bool.false_eq_true, if_false]
      exact ⟨Nat.zero_le _, min_le_right _ _⟩
    · simp only [hfe, if_true]
      exact ⟨Nat.zero_le _, by omega⟩

theorem c7_witness :
    (calculate_risk_level []).2 ≤
      (calculate_risk_level ([] ++ [⟨"phone", "555-123-4567", 0, 12, "high"⟩])).2 ∧
    0 ≤ (calculate_risk_level [(⟨"phone", "555-123-4567", 0, 12, "high"⟩ : Finding)]).2 ∧
    (calculate_risk_level [(⟨"phone", "555-123-4567", 0, 12, "high"⟩ : Finding)]).2 ≤ 100 :=
  ⟨c7_risk_monotonicity.1 [] ⟨"phone", "555-123-4567", 0, 12, "high"⟩ 15 (by decide)
      (by decide),
   (c7_risk_monotonicity.2 [⟨"phone", "555-123-4567", 0, 12, "high"⟩]).1,
   (c7_risk_monotonicity.2 [⟨"phone", "555-123-4567", 0, 12, "high"⟩]).2⟩

/-- C8: empty inputs are identities — scanning the empty string finds
nothing, scoring no findings is `("Safe", 0)`, and masking any text with no
findings returns it unchanged (in particular on the empty string). -/
theorem c8_empty_identities :
    scan_text_for_pii "" = some [] ∧
    calculate_risk_level [] = ("Safe", 0) ∧
    (∀ text : String, mask_sensitive_data text [] = text) ∧
    mask_sensitive_data "" [] = "" := by
  refine ⟨by decide, by decide, ?_, by decide⟩
  intro text
  simp only [mask_sensitive_data, sortByStartDesc, List.foldr_nil, List.foldl_nil]
  cases text with
  | mk data => rfl

/-- C9: on `"12345-6789"` the scan returns exactly an ssn finding followed
by a zip finding over the same span `[0, 10)`; the risk is
`("Medium", 35)`; the stable descending sort keeps the ssn first, so its
mask `***-**-**89` is written first and the zip replacement then overwrites
the first ten characters, leaving `"<ZIP>9"`. -/
theorem c9_overlap_clobber :
    scan_text_for_pii "12345-6789" =
      some [⟨"ssn", "12345-6789", 0, 10, "critical"⟩,
        ⟨"zip", "12345-6789", 0, 10, "low"⟩] ∧
    calculate_risk_level [⟨"ssn", "12345-6789", 0, 10, "critical"⟩,
        ⟨"zip", "12345-6789", 0, 10, "low"⟩] = ("Medium", 35) ∧
    sortByStartDesc [⟨"ssn", "12345-6789", 0, 10, "critical"⟩,
        ⟨"zip", "12345-6789", 0, 10, "low"⟩] =
      [⟨"ssn", "12345-6789", 0, 10, "critical"⟩,
        ⟨"zip", "12345-6789", 0, 10, "low"⟩] ∧
    mask_ssn "12345-6789" = "***-**-**89" ∧
    mask_sensitive_data "12345-6789"
        [⟨"ssn", "12345-6789", 0, 10, "critical"⟩,
         ⟨"zip", "12345-6789", 0, 10, "low"⟩] = "<ZIP>9" :=
  ⟨by decide, by decide, by decide, by decide, by decide⟩

/-- C10: a non-empty findings list whose categories all lie outside the
weight table scores `("Low", 0)` (in particular its score is below 5), and
no non-empty list can produce the level `"Safe"`. -/
theorem c10_unknown_categories :
    (∀ fs : List Finding, fs ≠ [] → (∀ f ∈ fs, risk_weights f.type = none) →
        calculate_risk_level fs = ("Low", 0) ∧ ¬ 5 ≤ (calculate_risk_level fs).2) ∧
    (∀ fs : List Finding, fs ≠ [] → (calculate_risk_level fs).1 ≠ "Safe") := by
  constructor
  · intro fs hne hall
    have hsum : (fs.map (fun f => specWeight f.type)).sum = 0 := by
      apply List.sum_eq_zero
      intro x hx
      simp only [List.mem_map] at hx
      obtain ⟨f, hf, rfl⟩ := hx
      rw [specWeight_eq_getD, hall f hf]
      rfl
    have hfe : fs.isEmpty = false := by
      cases fs with
      | nil => exact absurd rfl hne
      | cons a l => rfl
    constructor
    · rw [calc_risk_eq]
      simp only [hfe, Bool.false_eq_true, if_false, hsum]
      rfl
    · rw [calc_risk_eq]
      simp only [hfe, Bool.false_eq_true, if_false, hsum]
      decide
  · intro fs hne
    rw [calc_risk_eq]
    have hfe : fs.isEmpty = false := by
      cases fs with
      | nil => exact absurd rfl hne
      | cons a l => rfl
    simp only [hfe, Bool.false_eq_true, if_false]
    show specLevel _ ≠ "Safe"
    unfold specLevel
    split_ifs <;> decide

theorem c10_witness :
    calculate_risk_level [(⟨"username", "bob123", 0, 6, "low"⟩ : Finding)] = ("Low", 0) ∧
    ¬ 5 ≤ (calculate_risk_level [(⟨"username", "bob123", 0, 6, "low"⟩ : Finding)]).2 ∧
    (calculate_risk_level [(⟨"username", "bob123", 0, 6, "low"⟩ : Finding)]).1 ≠ "Safe" :=
  ⟨(c10_unknown_categories.1 [⟨"username", "bob123", 0, 6, "low"⟩] (by decide) (by decide)).1,
   (c10_unknown_categories.1 [⟨"username", "bob123", 0, 6, "low"⟩] (by decide) (by decide)).2,
   c10_unknown_categories.2 [⟨"username", "bob123", 0, 6, "low"⟩] (by decide)⟩

theorem c3_witness :
    ("john@example.com" : String) =
      String.mk (sliceL "john@example.com".toList 0 16) ∧
    0 ≤ (0 : Nat) ∧ (0 : Nat) < 16 ∧ 16 ≤ ("john@example.com" : String).length :=
  c3_offset_correctness "john@example.com"
    [⟨"email", "john@example.com", 0, 16, "medium"⟩]
    ⟨"email", "john@example.com", 0, 16, "medium"⟩
    (by decide) (by decide)
